import Mathlib

/-!
Verification of the `TerraformStack` synthesis core (terraform-cdk).

The definitions below are a shallow embedding of the TypeScript source:

* `deps`, `dependsOn`, `addDependency` — the stack dependency graph
  (`TerraformStack.dependsOn` / `TerraformStack.addDependency`);
* the construct-tree walker `terraformElements` and the `backend` getter;
* `TerraformStack.of`, `addOverride`, `allocateLogicalId`;
* the cross-stack reference registry
  (`registerOutgoingCrossStackReference` / `registerIncomingCrossStackReference`);
* `toTerraform` with the document merger `deepMerge`.

Stacks are identified by natural numbers where only identity matters
(`dependencies` holds object references in the source); the per-stack
`dependencies : TerraformStack[]` arrays are modelled as one global edge
list, an edge `(a, b)` standing for `b ∈ a.dependencies`, appended in call
order exactly as `push` appends.
-/

/-- A stack, identified by object identity (a number in the embedding). -/
abbrev StackId := Nat

/-- The dependency edges of every stack of the application: `(a, b)` means
`b` is an entry of `a.dependencies`.  Edge order within one stack follows
`push` order, as in the source. -/
abbrev DepGraph := List (StackId × StackId)

/-- `a.dependencies`: the recorded direct dependencies of `a`, in insertion
order. -/
def deps (g : DepGraph) (a : StackId) : List StackId :=
  (g.filter (fun e => e.1 == a)).map Prod.snd

/-- The recursion of `TerraformStack.dependsOn`:
`this.dependencies.includes(stack) || this.dependencies.some((d) => d.dependsOn(stack))`,
indexed by fuel.  The source recursion terminates on every acyclic graph
(the only graphs its guard is run on before the self-edge slip, see
`addDependency_self_edge`), and there its value is `dependsOnFuel` at any
fuel of at least the longest path length. -/
def dependsOnFuel (g : DepGraph) : Nat → StackId → StackId → Bool
  | 0, _, _ => false
  | fuel + 1, frm, tgt =>
    (deps g frm).contains tgt || (deps g frm).any (fun d => dependsOnFuel g fuel d tgt)

/-- `TerraformStack.dependsOn` at sufficient fuel: a simple path uses
pairwise distinct edges, so `g.length` steps reach everything reachable. -/
def dependsOn (g : DepGraph) (frm tgt : StackId) : Bool :=
  dependsOnFuel g g.length frm tgt

/-- `TerraformStack.addDependency(dependency)`: throw when
`dependency.dependsOn(this)`, return silently when the edge exists,
otherwise push the edge.  The pair is (graph after the call, error
raised); a raised error leaves the graph exactly as it was, since the
source throws before the push. -/
def addDependency (g : DepGraph) (frm dep : StackId) : DepGraph × Option String :=
  if dependsOn g dep frm then
    (g, some ("Can not add dependency " ++ toString dep ++ " to " ++ toString frm ++
      " since it would result in a loop"))
  else if (deps g frm).contains dep then
    (g, none)
  else
    (g ++ [(frm, dep)], none)

/-- `b` is transitively reachable from `a` along recorded dependency edges. -/
def Reaches (g : DepGraph) (a b : StackId) : Prop :=
  Relation.TransGen (fun x y => y ∈ deps g x) a b

/-- No stack transitively depends on itself. -/
def Acyclic (g : DepGraph) : Prop := ∀ a, ¬ Reaches g a a

/-- A walk recorded as the list of vertices visited after the start. -/
def DepWalk (g : DepGraph) : StackId → List StackId → Prop
  | _, [] => True
  | a, x :: xs => x ∈ deps g a ∧ DepWalk g x xs

structure NodeData where
  id : String
  isStack : Bool
  isElement : Bool
  isBackend : Bool
  backendType : String
  isApp : Bool
  deriving DecidableEq, Repr

/-- A construct tree node (`IConstruct` with `node.children`). -/
inductive CTree where
  | node (data : NodeData) (children : List CTree)

def dataOf : CTree → NodeData
  | .node d _ => d

def childrenOf : CTree → List CTree
  | .node _ cs => cs

mutual
/-- The free function `terraformElements(node, into)` of terraform-stack.ts:
push the node itself when it is a `TerraformElement`, then visit each child
in order, skipping children that are stacks. -/
def terraformElements : CTree → List CTree
  | .node d cs =>
    (if d.isElement then [CTree.node d cs] else []) ++ terraformElementsList cs
/-- The child loop of `terraformElements` (the `for` over `node.node.children`
with the `isStack` `continue`). -/
def terraformElementsList : List CTree → List CTree
  | [] => []
  | c :: rest =>
    (if (dataOf c).isStack then [] else terraformElements c) ++ terraformElementsList rest
end

mutual
/-- Plain depth-first pre-order listing of every node of the tree. -/
def preorder : CTree → List CTree
  | .node d cs => CTree.node d cs :: preorderList cs
def preorderList : List CTree → List CTree
  | [] => []
  | c :: rest => preorder c ++ preorderList rest
end

/-- `e` is reachable from `t` descending only through children that are not
stacks (the root itself may be a stack): the nodes `terraformElements` may
visit. -/
inductive StackFreeDesc : CTree → CTree → Prop
  | refl (t : CTree) : StackFreeDesc t t
  | child {c e : CTree} (d : NodeData) (cs : List CTree) :
      c ∈ cs → (dataOf c).isStack = false → StackFreeDesc c e →
      StackFreeDesc (CTree.node d cs) e

mutual
/-- The `visit` closure of the `backend` getter of `TerraformStack`: push
every node for which `TerraformBackend.isBackend` holds, then visit all
children in order (this walk has no stack boundary). -/
def backendList : CTree → List CTree
  | .node d cs => (if d.isBackend then [CTree.node d cs] else []) ++ backendListList cs
def backendListList : List CTree → List CTree
  | [] => []
  | c :: rest => backendList c ++ backendListList rest
end

/-- The fallback `new LocalBackend(this, {})` of the `backend` getter: the
`LocalBackend` constructor calls `super(scope, "backend", "local")`
(src/packages/cdktf/lib/backends/local-backend.ts), creating a backend
element child named `"backend"` of backend type `"local"`. -/
def localBackendNode : CTree :=
  CTree.node
    { id := "backend", isStack := false, isElement := true,
      isBackend := true, backendType := "local", isApp := false } []

/-- Attach a freshly constructed construct as the last child (constructs
record children in creation order). -/
def appendChild : CTree → CTree → CTree
  | .node d cs, c => CTree.node d (cs ++ [c])

/-- The `backend` getter: collect the backends of the whole subtree and
return `items[0] || new LocalBackend(this, {})`.  The pair is (the backend
returned, the stack subtree after the call — enlarged exactly when the
fallback construct was created). -/
def getBackend (t : CTree) : CTree × CTree :=
  match backendList t with
  | b :: _ => (b, t)
  | [] => (localBackendNode, appendChild t localBackendNode)

/-- A freshly constructed element construct (a `TerraformOutput`, a
remote-state data source) attached to a stack's tree under a given
construct id. -/
def elementNode (cid : String) : CTree :=
  CTree.node
    { id := cid, isStack := false, isElement := true,
      isBackend := false, backendType := "", isApp := false } []

/-- The synthetic `TerraformOutput` of `registerOutgoingCrossStackReference`:
scope, construct id, the referenced identifier and the `sensitive` flag as
the constructor call passes them; `uid` models object identity. -/
structure TfOutput where
  uid : Nat
  scopeStack : String
  constructId : String
  refIdentifier : String
  sensitive : Bool
  deriving DecidableEq, Repr

/-- The remote-state element `registerIncomingCrossStackReference` obtains
from the origin backend (`DataTerraformRemoteStateLocal` when that backend
is a `LocalBackend`). -/
structure RemoteStateEl where
  uid : Nat
  scope : String
  constructId : String
  backendKind : String
  originStack : String
  deriving DecidableEq, Repr

/-- The per-stack state the cross-stack reference registry touches: the
stack's construct subtree, the two private memo maps and a counter that
hands out object identities for freshly constructed elements. -/
structure StackState where
  name : String
  tree : CTree
  crossStackOutputs : List (String × TfOutput)
  crossStackDataSources : List (String × RemoteStateEl)
  nextUid : Nat

/-- `registerOutgoingCrossStackReference(identifier)`: return the memoized
output when `crossStackOutputs[identifier]` exists; otherwise create
`new TerraformOutput(stack, "cross-stack-output-" + identifier,
{ value: ref(identifier, stack, true), sensitive: true })` — where
`stack = TerraformStack.of(this)` is this stack itself — record it under
`identifier` and return it. -/
def registerOutgoing (st : StackState) (identifier : String) : TfOutput × StackState :=
  match st.crossStackOutputs.lookup identifier with
  | some o => (o, st)
  | none =>
    let o : TfOutput :=
      { uid := st.nextUid, scopeStack := st.name,
        constructId := "cross-stack-output-" ++ identifier,
        refIdentifier := identifier, sensitive := true }
    (o,
      { st with
        crossStackOutputs := st.crossStackOutputs ++ [(identifier, o)],
        tree := appendChild st.tree (elementNode o.constructId),
        nextUid := st.nextUid + 1 })

/-- `getRemoteStateDataSource(scope, name, fromStack)` of the origin stack's
backend.  For a `LocalBackend` (backend type `"local"`) this follows
src/packages/cdktf/lib/backends/local-backend.ts, which returns a
`DataTerraformRemoteStateLocal`, i.e. a remote-state element of backend
kind `"local"`.  For other backend classes, whose code is not part of this
repository slice, it is modelled from the spec: the backend contract
`getRemoteStateDataSource(consumingScope, elementId, originStackIdentifier)`
returns a remote-state element of the backend's kind in the consuming
scope.  (The `TerraformAsset` child the local implementation also creates
carries only the state file path and is not touched by any claim.) -/
def getRemoteStateDataSource (backendType scopeName elementId originName : String)
    (uid : Nat) : RemoteStateEl :=
  { uid := uid, scope := scopeName, constructId := elementId,
    backendKind := backendType, originStack := originName }

/-- `registerIncomingCrossStackReference(fromStack)`: return the memoized
remote state when `crossStackDataSources[String(fromStack)]` exists;
otherwise read `fromStack.backend` (which may create the fallback
`LocalBackend` inside the origin stack), ask it for the remote-state data
source named `"cross-stack-reference-input-" + fromStack`, record it under
the origin and return it.  The result triple is (remote state, consuming
stack after, origin stack after). -/
def registerIncoming (consumer origin : StackState) :
    RemoteStateEl × StackState × StackState :=
  match consumer.crossStackDataSources.lookup origin.name with
  | some r => (r, consumer, origin)
  | none =>
    let bo := getBackend origin.tree
    let rs := getRemoteStateDataSource (dataOf bo.1).backendType consumer.name
      ("cross-stack-reference-input-" ++ origin.name) origin.name consumer.nextUid
    (rs,
      { consumer with
        crossStackDataSources := consumer.crossStackDataSources ++ [(origin.name, rs)],
        tree := appendChild consumer.tree (elementNode rs.constructId),
        nextUid := consumer.nextUid + 1 },
      { origin with tree := bo.2 })

/-- The hint `TerraformStack.of` appends when the lookup dead-ends at a
scopeless `App` that is the original construct's own scope while that
construct is a `TerraformBackend`. -/
def appScopeHint : String :=
  ". You seem to have passed your root App as scope to a TerraformBackend construct. Pass a stack as scope to your backend instead."

/-- The error text of `TerraformStack.of`. -/
def noStackMessage (path hint : String) : String :=
  "No stack could be identified for the construct at path " ++ "'" ++ path ++ "'" ++ hint

/-- The recursive `_lookup` of `TerraformStack.of`, walking the scope chain
`[construct, parent, ..., root]`: return the current node when it is a
stack; throw when it has no scope (it is the chain's last entry); recurse
into the scope otherwise.  `origScope` is `construct.node.scope` (the
chain's second entry) and `origIsBackend` whether the original construct is
a `TerraformBackend`; both only feed the hint. -/
def stackOfGo (constructPath : String) (origScope : Option NodeData)
    (origIsBackend : Bool) : List NodeData → Except String NodeData
  | [] => Except.error (noStackMessage constructPath "")
  | c :: rest =>
    if c.isStack then Except.ok c
    else if rest.isEmpty then
      Except.error (noStackMessage constructPath
        (if origScope = some c ∧ c.isApp = true ∧ origIsBackend = true then appScopeHint
         else ""))
    else stackOfGo constructPath origScope origIsBackend rest

/-- `TerraformStack.of(construct)` over the construct's scope chain, the
construct itself first, the tree root last. -/
def stackOf (constructPath : String) (chain : List NodeData) : Except String NodeData :=
  stackOfGo constructPath chain[1]?
    (match chain.head? with | some c => c.isBackend | none => false) chain

/-- A sample element construct for concrete instantiations. -/
def sampleElemData : NodeData :=
  { id := "res", isStack := false, isElement := true,
    isBackend := false, backendType := "", isApp := false }

/-- A sample stack construct for concrete instantiations. -/
def sampleStackData : NodeData :=
  { id := "stack", isStack := true, isElement := false,
    isBackend := false, backendType := "", isApp := false }

/-- A sample root `App` construct for concrete instantiations. -/
def sampleRootData : NodeData :=
  { id := "", isStack := false, isElement := false,
    isBackend := false, backendType := "", isApp := true }

/-- The component selection of `TerraformStack.allocateLogicalId`:
`scopes` is `node.scopes` rendered as the node ids from the tree root down
to the element, the owning stack sitting at index `stackIdx`
(`node.scopes.indexOf(stack)`).  With the `EXCLUDE_STACK_ID_FROM_LOGICAL_IDS`
feature flag truthy in context the slice starts right after the stack,
otherwise right after index 0; the resulting components feed `makeUniqueId`
unchanged (`makeUniqueId`, private/unique.ts, is deterministic in the
component list alone — spec §4.2 — so the flag's whole effect is this
selection). -/
def allocateLogicalIdComponents (excludeStackFlag : Bool) (scopes : List String)
    (stackIdx : Nat) : List String :=
  let stackIndex := if excludeStackFlag then stackIdx else 0
  scopes.drop (stackIndex + 1)

/-- The component selection as the claim words it: by default the element's
ancestor path from its owning stack excludes the stack level, and the
feature flag instead includes the stack's own name as a path segment. -/
def claimLogicalIdComponents (excludeStackFlag : Bool) (scopes : List String)
    (stackIdx : Nat) : List String :=
  if excludeStackFlag then scopes.drop stackIdx else scopes.drop (stackIdx + 1)

/-- A JSON-style value: what the synthesized document and the raw overrides
hold.  Arrays and objects are ordered; object keys are unique in every
object the embedded code builds. -/
inductive JVal where
  | str (s : String)
  | num (n : Int)
  | boolean (b : Bool)
  | null
  | arr (xs : List JVal)
  | obj (fields : List (String × JVal))

/-- Whether a value is a non-array object (the only shape `deepMerge`
recurses into and `addOverride` descends through). -/
def isObjB : JVal → Bool
  | JVal.obj _ => true
  | _ => false

/-- JS property read `obj[key]` on the ordered field list. -/
def lookupField : List (String × JVal) → String → Option JVal
  | [], _ => none
  | (k, v) :: rest, key => if k = key then some v else lookupField rest key

/-- JS property write `obj[key] = v`: update in place when the key exists,
append otherwise (JS objects keep first-insertion key order). -/
def setField : List (String × JVal) → String → JVal → List (String × JVal)
  | [], key, v => [(key, v)]
  | (k, w) :: rest, key, v =>
    if k = key then (k, v) :: rest else (k, w) :: setField rest key v

mutual
/-- Modelled from the spec: `deepMerge` (util.ts, not part of this
repository slice).  Spec §4.4: for two mapping values at the same key merge
recursively key-by-key; for any other combination the later value silently
overwrites the earlier one at that key. -/
def deepMerge : JVal → JVal → JVal
  | JVal.obj fa, JVal.obj fb => JVal.obj (mergeFields fa fb)
  | _, b => b
/-- Fold the source object's fields into the target, in source order. -/
def mergeFields : List (String × JVal) → List (String × JVal) → List (String × JVal)
  | fa, [] => fa
  | fa, (k, v) :: rest =>
    mergeFields
      (match lookupField fa k with
       | some o => setField fa k (deepMerge o v)
       | none => setField fa k v) rest
end

/-- Modelled from the spec (§4.1): resolving a structure that contains no
deferred values produces a structurally identical output; `JVal` carries no
deferred values, so the embedded `resolve` is the identity. -/
def resolveTokens (v : JVal) : JVal := v

/-- Top-level property read on a document value. -/
def topLookup : JVal → String → Option JVal
  | JVal.obj fs, k => lookupField fs k
  | _, _ => none

/-- Whether a value is an object with the given top-level key. -/
def topHasKey (v : JVal) (k : String) : Bool :=
  (topLookup v k).isSome

/-- `TerraformStack.toTerraform()`: build the metadata record (version,
stack name, backend `"local"`, plus the overrides summary listing the
overridden top-level keys when raw overrides exist), fold every element's
metadata fragment into it, store it under the reserved key `"//"`, fold
every element's configuration fragment into the document, and deep-merge
the raw overrides last.  Fragments pass through `resolve`, the identity on
token-free values. -/
def stackMetadata (version stackName : String) (rawOverrides : List (String × JVal)) :
    List (String × JVal) :=
  [("version", JVal.str version), ("stackName", JVal.str stackName),
    ("backend", JVal.str "local")] ++
  (if rawOverrides.length > 0 then
    [("overrides",
      JVal.obj [("stack", JVal.arr (rawOverrides.map (fun kv => JVal.str kv.1)))])]
   else [])

def toTerraform (version stackName : String) (rawOverrides : List (String × JVal))
    (metadatas fragments : List JVal) : JVal :=
  let metadata := (metadatas.map resolveTokens).foldl deepMerge
    (JVal.obj (stackMetadata version stackName rawOverrides))
  let tf0 := JVal.obj [("//", JVal.obj [("metadata", metadata)])]
  let tf1 := (fragments.map resolveTokens).foldl deepMerge tf0
  resolveTokens (deepMerge tf1 (JVal.obj rawOverrides))

/-- The path walk of `TerraformStack.addOverride`: descend along the parts
while more than one part remains, replacing any intermediate value that is
not a non-array object by a fresh empty object, and assign the value at the
final key.  (`[]` cannot arise from a split.) -/
def subObjFields (fields : List (String × JVal)) (key : String) : List (String × JVal) :=
  match lookupField fields key with
  | some (JVal.obj fs) => fs
  | _ => []

def setPath (fields : List (String × JVal)) : List String → JVal → List (String × JVal)
  | [], _ => fields
  | [key], v => setField fields key v
  | key :: part2 :: parts, v =>
    setField fields key (JVal.obj (setPath (subObjFields fields key) (part2 :: parts) v))

/-- `path.split(".")` over the path's character list (a one-character
separator, so the JS split is exactly this grouping; `"".split(".")` is
`[""]`). -/
def splitChars (sep : Char) : List Char → List (List Char)
  | [] => [[]]
  | c :: cs =>
    if c = sep then [] :: splitChars sep cs
    else (c :: (splitChars sep cs).headD []) :: (splitChars sep cs).tail

/-- The key path `path.split(".")` of `addOverride`. -/
def splitOnDot (s : String) : List String :=
  (splitChars '.' s.data).map (fun cs => String.mk cs)

/-- `TerraformStack.addOverride(path, value)`: split the path on `"."` and
store the value at the resulting key path inside the raw overrides. -/
def addOverride (rawOverrides : List (String × JVal)) (path : String) (value : JVal) :
    List (String × JVal) :=
  setPath rawOverrides (splitOnDot path) value

/-- Read the nested value at a key path (descending through objects only). -/
def getPath (fields : List (String × JVal)) : List String → Option JVal
  | [] => none
  | [key] => lookupField fields key
  | key :: part2 :: parts =>
    match lookupField fields key with
    | some (JVal.obj sub) => getPath sub (part2 :: parts)
    | _ => none

/-! ### Theorems -/

theorem depWalk_append {g : DepGraph} :
    ∀ (u : List StackId) (a : StackId) (v : List StackId),
      DepWalk g a (u ++ v) ↔ DepWalk g a u ∧ DepWalk g (u.getLastD a) v := by
  intro u
  induction u with
  | nil => intro a v; simp [DepWalk]
  | cons x xs ih =>
    intro a v
    rw [List.cons_append]
    show (x ∈ deps g a ∧ DepWalk g x (xs ++ v)) ↔
      (x ∈ deps g a ∧ DepWalk g x xs) ∧ DepWalk g ((x :: xs).getLastD a) v
    rw [ih x v, List.getLastD_cons]
    tauto

theorem mem_deps_mem_targets {g : DepGraph} {a x : StackId} (h : x ∈ deps g a) :
    x ∈ g.map Prod.snd := by
  simp only [deps, List.mem_map, List.mem_filter] at h ⊢
  obtain ⟨e, ⟨he, _⟩, rfl⟩ := h
  exact ⟨e, he, rfl⟩

theorem depWalk_subset_targets {g : DepGraph} :
    ∀ (l : List StackId) (a : StackId), DepWalk g a l → ∀ x ∈ l, x ∈ g.map Prod.snd := by
  intro l
  induction l with
  | nil => intro a _ x hx; cases hx
  | cons y ys ih =>
    intro a hw x hx
    rcases hw with ⟨hy, hw⟩
    rcases List.mem_cons.mp hx with rfl | hx
    · exact mem_deps_mem_targets hy
    · exact ih y hw x hx

/-- Any list that is not `Nodup` splits at a repeated element. -/
theorem exists_dup_split {α : Type} [DecidableEq α] :
    ∀ (l : List α), ¬ l.Nodup → ∃ (p : List α) (x : α) (q : List α), l = p ++ x :: q ∧ x ∈ q := by
  intro l
  induction l with
  | nil => intro h; exact absurd List.nodup_nil h
  | cons y ys ih =>
    intro h
    by_cases hy : y ∈ ys
    · exact ⟨[], y, ys, rfl, hy⟩
    · have : ¬ ys.Nodup := fun hn => h (List.nodup_cons.mpr ⟨hy, hn⟩)
      obtain ⟨p, x, q, hq, hx⟩ := ih this
      exact ⟨y :: p, x, q, by rw [hq]; rfl, hx⟩

/-- A walk ending at `b` can be shortened to a `Nodup` walk ending at `b`. -/
theorem depWalk_shorten {g : DepGraph} :
    ∀ (n : Nat) (l : List StackId) (a b : StackId), l.length ≤ n →
      DepWalk g a (l ++ [b]) →
      ∃ l2 : List StackId, DepWalk g a (l2 ++ [b]) ∧ (l2 ++ [b]).Nodup ∧ l2.length ≤ l.length := by
  intro n
  induction n with
  | zero =>
    intro l a b hl hw
    have : l = [] := List.eq_nil_of_length_eq_zero (Nat.le_zero.mp hl)
    subst this
    exact ⟨[], hw, by simp, Nat.le_refl 0⟩
  | succ n ih =>
    intro l a b hl hw
    by_cases hnd : (l ++ [b]).Nodup
    · exact ⟨l, hw, hnd, Nat.le_refl _⟩
    · obtain ⟨p, x, q, heq, hxq⟩ := exists_dup_split (l ++ [b]) hnd
      obtain ⟨q1, q2, rfl⟩ := List.append_of_mem hxq
      -- l ++ [b] = (p ++ [x]) ++ (q1 ++ [x]) ++ q2; cut out (q1 ++ [x]).
      have heq' : l ++ [b] = ((p ++ [x]) ++ (q1 ++ [x])) ++ q2 := by
        rw [heq]; simp
      have hw' : DepWalk g a (((p ++ [x]) ++ (q1 ++ [x])) ++ q2) := heq' ▸ hw
      rw [depWalk_append] at hw'
      obtain ⟨hw1, hw2⟩ := hw'
      have hlastu : ((p ++ [x]) ++ (q1 ++ [x])).getLastD a = x := by
        rw [show (p ++ [x]) ++ (q1 ++ [x]) = ((p ++ [x]) ++ q1) ++ [x] by simp]
        exact List.getLastD_concat ..
      rw [hlastu] at hw2
      have hw11 : DepWalk g a (p ++ [x]) := ((depWalk_append _ _ _).mp hw1).1
      have hlastp : (p ++ [x]).getLastD a = x := List.getLastD_concat ..
      have hcut : DepWalk g a ((p ++ [x]) ++ q2) := by
        rw [depWalk_append, hlastp]
        exact ⟨hw11, hw2⟩
      -- the cut walk still ends at b
      have hends : ∃ l2, (p ++ [x]) ++ q2 = l2 ++ [b] ∧ l2.length < l.length := by
        have hlens : l.length + 1 = p.length + 1 + q1.length + 1 + q2.length := by
          have := congrArg List.length heq'
          simp [List.length_append] at this
          omega
        rcases List.eq_nil_or_concat' q2 with rfl | ⟨q2', y, rfl⟩
        · -- q2 = [], so the trailing element x is b
          have hx : x = b := by
            have h1 : (l ++ [b]).getLast? = some b := List.getLast?_concat ..
            have h2 : (l ++ [b]).getLast? = some x := by
              rw [heq', show ((p ++ [x]) ++ (q1 ++ [x])) ++ [] = ((p ++ [x]) ++ q1) ++ [x] by simp]
              exact List.getLast?_concat ..
            rw [h1] at h2
            exact (Option.some.injEq .. ▸ h2).symm
          subst hx
          exact ⟨p, by simp, by omega⟩
        · -- q2 ends in y; y is b
          have hy : y = b := by
            have h1 : (l ++ [b]).getLast? = some b := List.getLast?_concat ..
            have h2 : (l ++ [b]).getLast? = some y := by
              rw [heq', show ((p ++ [x]) ++ (q1 ++ [x])) ++ (q2' ++ [y]) =
                (((p ++ [x]) ++ (q1 ++ [x])) ++ q2') ++ [y] by simp]
              exact List.getLast?_concat ..
            rw [h1] at h2
            exact (Option.some.injEq .. ▸ h2).symm
          subst hy
          refine ⟨(p ++ [x]) ++ q2', by simp, ?_⟩
          have := congrArg List.length heq'
          simp [List.length_append] at this ⊢
          omega
      obtain ⟨l2, hl2, hlt⟩ := hends
      rw [hl2] at hcut
      obtain ⟨l3, h3w, h3nd, h3le⟩ := ih l2 a b (by omega) hcut
      exact ⟨l3, h3w, h3nd, by omega⟩

theorem contains_iff_mem {l : List Nat} {a : Nat} : l.contains a = true ↔ a ∈ l := by
  simp

/-- `dependsOnFuel` finds exactly the walks of length at most the fuel. -/
theorem dependsOnFuel_iff_walk {g : DepGraph} :
    ∀ (n : Nat) (a b : StackId),
      dependsOnFuel g n a b = true ↔ ∃ l, DepWalk g a (l ++ [b]) ∧ l.length + 1 ≤ n := by
  intro n
  induction n with
  | zero =>
    intro a b
    simp only [dependsOnFuel]
    constructor
    · intro h; cases h
    · rintro ⟨l, _, h⟩; omega
  | succ n ih =>
    intro a b
    simp only [dependsOnFuel, Bool.or_eq_true, List.any_eq_true, contains_iff_mem]
    constructor
    · rintro (hb | ⟨d, hd, hrec⟩)
      · exact ⟨[], ⟨hb, trivial⟩, by simp⟩
      · obtain ⟨l, hw, hlen⟩ := (ih d b).mp hrec
        exact ⟨d :: l, ⟨hd, hw⟩, by simpa using Nat.succ_le_succ hlen⟩
    · rintro ⟨l, hw, hlen⟩
      rcases l with _ | ⟨d, l'⟩
      · exact Or.inl hw.1
      · rcases hw with ⟨hd, hw⟩
        refine Or.inr ⟨d, hd, (ih d b).mpr ⟨l', hw, ?_⟩⟩
        simpa using Nat.le_of_succ_le_succ hlen

/-- Transitive reachability is the same as having a walk. -/
theorem reaches_iff_walk {g : DepGraph} {a b : StackId} :
    Reaches g a b ↔ ∃ l, DepWalk g a (l ++ [b]) := by
  constructor
  · intro h
    induction h with
    | single hb => exact ⟨[], hb, trivial⟩
    | tail hac hcb ih =>
      rename_i c d
      obtain ⟨l, hw⟩ := ih
      refine ⟨l ++ [c], ?_⟩
      rw [depWalk_append, List.getLastD_concat]
      exact ⟨hw, hcb, trivial⟩
  · rintro ⟨l, hw⟩
    induction l generalizing a with
    | nil => exact Relation.TransGen.single hw.1
    | cons x xs ih =>
      simp only [List.cons_append, DepWalk] at hw
      exact Relation.TransGen.head hw.1 (ih hw.2)

/-- The fuel `g.length` always suffices: every walk shortens to a `Nodup`
walk whose vertices are edge targets, of which there are at most
`g.length`. -/
theorem dependsOn_iff_reaches {g : DepGraph} {a b : StackId} :
    dependsOn g a b = true ↔ Reaches g a b := by
  rw [dependsOn, dependsOnFuel_iff_walk, reaches_iff_walk]
  constructor
  · rintro ⟨l, hw, _⟩; exact ⟨l, hw⟩
  · rintro ⟨l, hw⟩
    obtain ⟨l2, h2w, h2nd, _⟩ := depWalk_shorten l.length l a b (Nat.le_refl _) hw
    refine ⟨l2, h2w, ?_⟩
    have hsub : (l2 ++ [b]) ⊆ g.map Prod.snd :=
      depWalk_subset_targets (l2 ++ [b]) a h2w
    have hle : (l2 ++ [b]).length ≤ (g.map Prod.snd).length :=
      (h2nd.subperm hsub).length_le
    simp only [List.length_append, List.length_map, List.length_cons, List.length_nil] at hle
    omega

/-- A decidable sufficient condition for acyclicity. -/
theorem acyclic_of_check {g : DepGraph}
    (h : ∀ x ∈ g.map Prod.snd, dependsOn g x x = false) : Acyclic g := by
  intro a hra
  have hm : a ∈ g.map Prod.snd := by
    obtain ⟨l, hw⟩ := reaches_iff_walk.mp hra
    exact depWalk_subset_targets (l ++ [a]) a hw a (by simp)
  have hfalse := h a hm
  rw [← dependsOn_iff_reaches, hfalse] at hra
  cases hra

theorem acyclic_nil : Acyclic ([] : DepGraph) := acyclic_of_check (by decide)

/-- C7: `dependsOn(A, B)` answers transitive reachability: assuming the
recorded graph is acyclic, it returns `true` exactly when there is a
directed path of recorded dependency edges from `A` to `B`.  (The claim
assumes acyclicity; the hypothesis is kept although the fuel-stabilised
embedding satisfies the equivalence on every graph, because only on
acyclic graphs does the source recursion itself terminate.) -/
theorem dependsOn_transitive_reachability (g : DepGraph) (a b : StackId)
    (hg : Acyclic g) : dependsOn g a b = true ↔ Reaches g a b :=
  dependsOn_iff_reaches

theorem dependsOn_transitive_reachability_witness :
    Acyclic [(0, 1), (1, 2)]
    ∧ (dependsOn [(0, 1), (1, 2)] 0 2 = true ↔ Reaches [(0, 1), (1, 2)] 0 2)
    ∧ Reaches [(0, 1), (1, 2)] 0 2 := by
  have hacyc : Acyclic [(0, 1), (1, 2)] := acyclic_of_check (by decide)
  have h := dependsOn_transitive_reachability [(0, 1), (1, 2)] 0 2 hacyc
  exact ⟨hacyc, h, h.mp (by decide)⟩

/-- C1: `addDependency(A, B)` fails (with the loop error) exactly when `B`
already transitively depends on `A`, leaving the graph unchanged on
failure; otherwise it records the edge idempotently (a second call with the
edge present is a no-op raising no error).  In particular
`addDependency(A, B)` then `addDependency(B, A)` fails and leaves only the
A-to-B edge. -/
theorem addDependency_contract (g : DepGraph) (A B : StackId) (hg : Acyclic g) :
    ((addDependency g A B).2.isSome ↔ Reaches g B A)
    ∧ ((addDependency g A B).2.isSome → (addDependency g A B).1 = g)
    ∧ (¬ Reaches g B A → B ∈ deps g A → addDependency g A B = (g, none))
    ∧ (¬ Reaches g B A → B ∉ deps g A → addDependency g A B = (g ++ [(A, B)], none))
    ∧ (∀ X Y : StackId, addDependency ([] : DepGraph) X Y = ([(X, Y)], none)
        ∧ (addDependency [(X, Y)] Y X).1 = [(X, Y)]
        ∧ (addDependency [(X, Y)] Y X).2.isSome = true) := by
  have hiff : dependsOn g B A = true ↔ Reaches g B A := dependsOn_iff_reaches
  refine ⟨?_, ?_, ?_, ?_, ?_⟩
  · by_cases h : dependsOn g B A = true
    · simp [addDependency, h, hiff.mp h]
    · rw [Bool.not_eq_true] at h
      simp only [addDependency, h, Bool.false_eq_true, if_false]
      constructor
      · intro hs
        by_cases hc : B ∈ deps g A <;> simp [hc] at hs
      · intro hr
        exact absurd (hiff.mpr hr) (by simp [h])
  · intro hs
    by_cases h : dependsOn g B A = true
    · simp [addDependency, h]
    · exfalso
      rw [Bool.not_eq_true] at h
      by_cases hc : B ∈ deps g A <;> simp [addDependency, h, hc] at hs
  · intro hnr hmem
    have h : dependsOn g B A = false := by
      rw [← Bool.not_eq_true]
      exact fun ht => hnr (hiff.mp ht)
    simp [addDependency, h, hmem]
  · intro hnr hmem
    have h : dependsOn g B A = false := by
      rw [← Bool.not_eq_true]
      exact fun ht => hnr (hiff.mp ht)
    simp [addDependency, h, hmem]
  · intro X Y
    refine ⟨?_, ?_, ?_⟩ <;>
      simp [addDependency, dependsOn, dependsOnFuel, deps]

theorem addDependency_contract_witness :
    addDependency ([] : DepGraph) 0 1 = ([(0, 1)], none)
    ∧ (addDependency [(0, 1)] 1 0).1 = [(0, 1)]
    ∧ (addDependency [(0, 1)] 1 0).2.isSome = true :=
  (addDependency_contract [] 0 1 acyclic_nil).2.2.2.2 0 1

/-- C3 (code bug): the guard of `addDependency` asks whether the dependency
already depends on `this`, which a fresh self-edge `addDependency(A, A)`
does not trigger, so the self-loop is recorded without an error and the
graph is no longer acyclic — contradicting the loop check the source
comments announce. -/
theorem addDependency_self_edge :
    addDependency ([] : DepGraph) 0 0 = ([(0, 0)], none)
    ∧ dependsOn [(0, 0)] 0 0 = true
    ∧ ¬ Acyclic [(0, 0)] := by
  refine ⟨by decide, by decide, fun h => h 0 ?_⟩
  exact Relation.TransGen.single (by decide)

/-!
The construct tree.  A node carries the data the source inspects through
dynamic class checks: `TerraformStack.isStack` (the stack symbol),
`instanceof TerraformElement`, `TerraformBackend.isBackend`,
`instanceof App`, and — for a backend — the backend name passed to the
`TerraformBackend` constructor (`"local"` for `LocalBackend`).  Children
are kept in insertion order, as `node.children` is. -/

mutual
theorem terraformElements_sublist_preorder :
    ∀ t : CTree, List.Sublist (terraformElements t) (preorder t)
  | .node d cs => by
    rw [terraformElements, preorder]
    by_cases h : d.isElement = true
    · simp only [h, if_true, List.singleton_append]
      exact (terraformElementsList_sublist_preorderList cs).cons₂ _
    · simp only [h, if_false, List.nil_append]
      exact (terraformElementsList_sublist_preorderList cs).cons _
theorem terraformElementsList_sublist_preorderList :
    ∀ cs : List CTree, List.Sublist (terraformElementsList cs) (preorderList cs)
  | [] => by rw [terraformElementsList, preorderList]
  | c :: rest => by
    rw [terraformElementsList, preorderList]
    by_cases h : (dataOf c).isStack = true
    · simp only [h, if_true, List.nil_append]
      exact (terraformElementsList_sublist_preorderList rest).trans
        (List.sublist_append_right _ _)
    · simp only [h, if_false]
      exact (terraformElements_sublist_preorder c).append
        (terraformElementsList_sublist_preorderList rest)
end

theorem mem_terraformElementsList_of {x c : CTree} :
    ∀ cs : List CTree, c ∈ cs → (dataOf c).isStack = false → x ∈ terraformElements c →
      x ∈ terraformElementsList cs := by
  intro cs
  induction cs with
  | nil => intro h; cases h
  | cons y ys ih =>
    intro hc hns hx
    rw [terraformElementsList]
    rcases List.mem_cons.mp hc with rfl | hc
    · exact List.mem_append.mpr (Or.inl (by rw [if_neg (by simp [hns])]; exact hx))
    · exact List.mem_append.mpr (Or.inr (ih hc hns hx))

mutual
theorem mem_terraformElements_sfd :
    ∀ (t e : CTree), e ∈ terraformElements t → (dataOf e).isElement = true ∧ StackFreeDesc t e
  | .node d cs, e, h => by
    rw [terraformElements] at h
    rcases List.mem_append.mp h with h1 | h2
    · by_cases hd : d.isElement = true
      · rw [if_pos hd] at h1
        rcases List.mem_singleton.mp h1 with rfl
        exact ⟨hd, StackFreeDesc.refl _⟩
      · rw [if_neg hd] at h1
        cases h1
    · obtain ⟨c, hc, hns, he⟩ := mem_terraformElementsList_sfd cs e h2
      exact ⟨he.1, StackFreeDesc.child d cs hc hns he.2⟩
theorem mem_terraformElementsList_sfd :
    ∀ (cs : List CTree) (e : CTree), e ∈ terraformElementsList cs →
      ∃ c ∈ cs, (dataOf c).isStack = false ∧
        ((dataOf e).isElement = true ∧ StackFreeDesc c e)
  | [], e, h => by rw [terraformElementsList] at h; cases h
  | c :: rest, e, h => by
    rw [terraformElementsList] at h
    rcases List.mem_append.mp h with h1 | h2
    · by_cases hs : (dataOf c).isStack = true
      · rw [if_pos hs] at h1
        cases h1
      · rw [if_neg hs] at h1
        exact ⟨c, List.mem_cons_self c rest, Bool.not_eq_true _ ▸ hs,
          mem_terraformElements_sfd c e h1⟩
    · obtain ⟨c', hc', hrest⟩ := mem_terraformElementsList_sfd rest e h2
      exact ⟨c', List.mem_cons_of_mem c hc', hrest⟩
end

theorem mem_terraformElements_of_sfd {t e : CTree}
    (h : StackFreeDesc t e) (hel : (dataOf e).isElement = true) :
    e ∈ terraformElements t := by
  induction h with
  | refl t =>
    cases t with
    | node d cs =>
      rw [terraformElements]
      simp only [dataOf] at hel
      rw [if_pos hel]
      exact List.mem_append.mpr (Or.inl (List.mem_singleton.mpr rfl))
  | child d cs hc hns hsub ih =>
    rw [terraformElements]
    exact List.mem_append.mpr (Or.inr (mem_terraformElementsList_of cs hc hns (ih hel)))

/-- C5: `terraformElements` lists elements in depth-first pre-order in child
insertion order (it is an ordered sublist of the plain pre-order listing),
and it collects exactly the descendants that are elements and are reachable
without crossing a nested stack child: elements under a nested stack are
excluded. -/
theorem terraformElements_contract (t : CTree) :
    List.Sublist (terraformElements t) (preorder t)
    ∧ (∀ e : CTree, e ∈ terraformElements t ↔
        (dataOf e).isElement = true ∧ StackFreeDesc t e) :=
  ⟨terraformElements_sublist_preorder t, fun e =>
    ⟨fun h => mem_terraformElements_sfd t e h,
     fun h => mem_terraformElements_of_sfd h.2 h.1⟩⟩

mutual
theorem backendList_eq_filter :
    ∀ t : CTree, backendList t = (preorder t).filter (fun n => (dataOf n).isBackend)
  | .node d cs => by
    rw [backendList, preorder, List.filter_cons, backendListList_eq_filter cs]
    by_cases h : d.isBackend = true
    · rw [if_pos h, if_pos (show (dataOf (CTree.node d cs)).isBackend = true from h)]
      rfl
    · rw [if_neg h, if_neg (show ¬ (dataOf (CTree.node d cs)).isBackend = true from h)]
      rfl
theorem backendListList_eq_filter :
    ∀ cs : List CTree, backendListList cs = (preorderList cs).filter (fun n => (dataOf n).isBackend)
  | [] => by rw [backendListList, preorderList]; rfl
  | c :: rest => by
    rw [backendListList, preorderList, List.filter_append,
      backendList_eq_filter c, backendListList_eq_filter rest]
end

theorem lookup_append_of_none {α β : Type} [BEq α] {l l2 : List (α × β)} {k : α}
    (h : l.lookup k = none) : (l ++ l2).lookup k = l2.lookup k := by
  induction l with
  | nil => rfl
  | cons p rest ih =>
    rw [List.cons_append]
    cases p with
    | mk a b =>
      simp only [List.lookup] at h ⊢
      cases hk : k == a with
      | true => rw [hk] at h; cases h
      | false => rw [hk] at h; exact ih h

/-- C4: both registries are memoized and idempotent.  A second
`registerOutgoingCrossStackReference` with the same identifier returns the
identical output and leaves the state untouched; when the identifier is
fresh, the output created is scoped to the stack, named
`cross-stack-output-<identifier>` and marked sensitive.  A second
`registerIncomingCrossStackReference` for the same origin stack returns the
identical remote-state element and leaves both stacks untouched. -/
theorem crossStackReference_memoization (st : StackState) (ident : String)
    (consumer origin : StackState) :
    registerOutgoing (registerOutgoing st ident).2 ident = registerOutgoing st ident
    ∧ (st.crossStackOutputs.lookup ident = none →
        (registerOutgoing st ident).1.sensitive = true
        ∧ (registerOutgoing st ident).1.scopeStack = st.name
        ∧ (registerOutgoing st ident).1.constructId = "cross-stack-output-" ++ ident)
    ∧ registerIncoming (registerIncoming consumer origin).2.1
        (registerIncoming consumer origin).2.2 = registerIncoming consumer origin := by
  refine ⟨?_, ?_, ?_⟩
  · cases h : st.crossStackOutputs.lookup ident with
    | some o => simp [registerOutgoing, h]
    | none =>
      have h2 : ∀ o : TfOutput,
          (st.crossStackOutputs ++ [(ident, o)]).lookup ident = some o := by
        intro o
        rw [lookup_append_of_none h]
        simp [List.lookup]
      simp [registerOutgoing, h, h2]
  · intro h
    simp [registerOutgoing, h]
  · cases h : consumer.crossStackDataSources.lookup origin.name with
    | some r => simp [registerIncoming, h]
    | none =>
      have h2 : ∀ r : RemoteStateEl,
          (consumer.crossStackDataSources ++ [(origin.name, r)]).lookup origin.name
            = some r := by
        intro r
        rw [lookup_append_of_none h]
        simp [List.lookup]
      simp [registerIncoming, h, h2]

/-- C9: the `backend` getter does not fail on a stack without a backend: it
constructs a fresh `LocalBackend` child of the stack (enlarging the tree);
with backends present it returns the first backend in pre-order and leaves
the tree alone.  Consequently `registerIncomingCrossStackReference` against
an origin stack with no backend produces a remote-state data source of the
local backend kind. -/
theorem backend_getter_contract (t : CTree) (consumer origin : StackState) :
    ((preorder t).filter (fun n => (dataOf n).isBackend) = [] →
      getBackend t = (localBackendNode, appendChild t localBackendNode))
    ∧ (∀ b rest, (preorder t).filter (fun n => (dataOf n).isBackend) = b :: rest →
      getBackend t = (b, t))
    ∧ ((preorder origin.tree).filter (fun n => (dataOf n).isBackend) = [] →
      consumer.crossStackDataSources.lookup origin.name = none →
      (registerIncoming consumer origin).1.backendKind = "local"
      ∧ (registerIncoming consumer origin).1.originStack = origin.name) := by
  refine ⟨?_, ?_, ?_⟩
  · intro h
    have hb : backendList t = [] := (backendList_eq_filter t).trans h
    simp [getBackend, hb]
  · intro b rest h
    have hb : backendList t = b :: rest := (backendList_eq_filter t).trans h
    simp [getBackend, hb]
  · intro h hmiss
    have hb : backendList origin.tree = [] := (backendList_eq_filter origin.tree).trans h
    simp [registerIncoming, hmiss, getBackend, hb, getRemoteStateDataSource,
      localBackendNode, dataOf]

theorem stackOfGo_spec (p : String) (os : Option NodeData) (ib : Bool) :
    ∀ chain : List NodeData, chain ≠ [] →
      (∀ s, stackOfGo p os ib chain = Except.ok s ↔
        chain.find? (fun c => c.isStack) = some s)
      ∧ (chain.find? (fun c => c.isStack) = none →
          ∃ hint, stackOfGo p os ib chain = Except.error (noStackMessage p hint)) := by
  intro chain
  induction chain with
  | nil => intro h; exact absurd rfl h
  | cons c rest ih =>
    intro _
    by_cases hc : c.isStack = true
    · rw [stackOfGo, if_pos hc, List.find?_cons_of_pos _ hc]
      constructor
      · intro s
        constructor
        · intro h
          rw [Except.ok.injEq] at h
          rw [h]
        · intro h
          rw [Option.some.injEq] at h
          rw [h]
      · intro h; cases h
    · rw [stackOfGo, if_neg hc, List.find?_cons_of_neg _ hc]
      rcases hrest : rest with _ | ⟨c2, rest2⟩
      · rw [if_pos (by rw [List.isEmpty_nil])]
        constructor
        · intro s
          constructor
          · intro h; cases h
          · intro h
            rw [List.find?_nil] at h
            cases h
        · intro _
          exact ⟨_, rfl⟩
      · rw [if_neg (by rw [List.isEmpty_cons]; exact Bool.false_ne_true)]
        rw [← hrest]
        exact ih (by simp [hrest])

/-- C8: `TerraformStack.of` returns the first stack of the scope chain (the
construct itself, then its ancestors bottom-up — so the nearest enclosing
stack), and throws exactly when no entry of the chain is a stack, the error
message carrying the construct's path. -/
theorem stackOf_contract (path : String) (chain : List NodeData) (hne : chain ≠ []) :
    (∀ s, stackOf path chain = Except.ok s ↔ chain.find? (fun c => c.isStack) = some s)
    ∧ ((∀ c ∈ chain, c.isStack = false) ↔
        ∃ pre post, stackOf path chain = Except.error (pre ++ path ++ post)) := by
  have h := stackOfGo_spec path chain[1]?
    (match chain.head? with | some c => c.isBackend | none => false) chain hne
  refine ⟨h.1, ?_, ?_⟩
  · intro hall
    have hnone : chain.find? (fun c => c.isStack) = none :=
      List.find?_eq_none.mpr (fun x hx => by simp [hall x hx])
    obtain ⟨hint, herr⟩ := h.2 hnone
    refine ⟨"No stack could be identified for the construct at path " ++ "'",
      "'" ++ hint, ?_⟩
    unfold stackOf
    rw [herr, noStackMessage]
    congr 1
    rw [String.append_assoc, String.append_assoc, String.append_assoc]
  · rintro ⟨pre, post, herr⟩
    intro c hc
    by_contra hcs
    rw [Bool.not_eq_false] at hcs
    have hsome : (chain.find? (fun c => c.isStack)).isSome :=
      List.find?_isSome.mpr ⟨c, hc, hcs⟩
    obtain ⟨s, hs⟩ := Option.isSome_iff_exists.mp hsome
    have hok := (h.1 s).mpr hs
    unfold stackOf at herr
    cases hok.symm.trans herr

theorem stackOf_contract_witness :
    stackOf "app/stack/res" [sampleElemData, sampleStackData, sampleRootData]
      = Except.ok sampleStackData
    ∧ (∃ pre post, stackOf "app/res" [sampleElemData, sampleRootData]
      = Except.error (pre ++ "app/res" ++ post)) := by
  have h1 := stackOf_contract "app/stack/res"
    [sampleElemData, sampleStackData, sampleRootData] (List.cons_ne_nil _ _)
  have h2 := stackOf_contract "app/res" [sampleElemData, sampleRootData]
    (List.cons_ne_nil _ _)
  refine ⟨(h1.1 sampleStackData).mpr (by decide), h2.2.mp (by decide)⟩

/-- C2 counterexample: for the standard root / stack / element chain with no
feature flag set in context, the source includes the stack's name among the
id components while the claim's default excludes it — the claim states the
flag's sense backwards. -/
theorem allocateLogicalId_claim_counterexample :
    allocateLogicalIdComponents false ["", "mystack", "res"] 1
      ≠ claimLogicalIdComponents false ["", "mystack", "res"] 1
    ∧ allocateLogicalIdComponents false ["", "mystack", "res"] 1 = ["mystack", "res"]
    ∧ claimLogicalIdComponents false ["", "mystack", "res"] 1 = ["res"] := by
  refine ⟨by decide, by decide, by decide⟩

/-- C2 (amended): with `EXCLUDE_STACK_ID_FROM_LOGICAL_IDS` set in context
the logical-id components are the node names strictly below the stack
level (the stack excluded); with no flag set — the default — they are all
names strictly below the tree root, so the stack's own name appears as a
path segment whenever the stack is not the root. -/
theorem allocateLogicalId_components (scopes : List String) (stackIdx : Nat)
    (h1 : 1 ≤ stackIdx) (h2 : stackIdx < scopes.length) :
    allocateLogicalIdComponents true scopes stackIdx = scopes.drop (stackIdx + 1)
    ∧ allocateLogicalIdComponents false scopes stackIdx = scopes.drop 1
    ∧ (allocateLogicalIdComponents false scopes stackIdx)[stackIdx - 1]? = scopes[stackIdx]?
    ∧ ∀ name, scopes[stackIdx]? = some name →
        name ∈ allocateLogicalIdComponents false scopes stackIdx := by
  refine ⟨rfl, rfl, ?_, ?_⟩
  · show (scopes.drop 1)[stackIdx - 1]? = scopes[stackIdx]?
    rw [List.getElem?_drop]
    congr 1
    omega
  · intro name hname
    show name ∈ scopes.drop 1
    have hdrop : (scopes.drop 1)[stackIdx - 1]? = some name := by
      rw [List.getElem?_drop, show 1 + (stackIdx - 1) = stackIdx by omega]
      exact hname
    exact List.getElem?_mem hdrop

theorem allocateLogicalId_components_witness :
    allocateLogicalIdComponents true ["", "mystack", "res"] 1 = ["res"]
    ∧ allocateLogicalIdComponents false ["", "mystack", "res"] 1 = ["mystack", "res"]
    ∧ "mystack" ∈ allocateLogicalIdComponents false ["", "mystack", "res"] 1 := by
  have h := allocateLogicalId_components ["", "mystack", "res"] 1 (by decide) (by decide)
  exact ⟨h.1, h.2.1, h.2.2.2 "mystack" (by decide)⟩

theorem lookupField_setField_self (fields : List (String × JVal)) (key : String) (v : JVal) :
    lookupField (setField fields key v) key = some v := by
  induction fields with
  | nil => simp [setField, lookupField]
  | cons p rest ih =>
    cases p with
    | mk k w =>
      by_cases hk : k = key
      · simp [setField, hk, lookupField]
      · simp [setField, hk, lookupField, ih]

theorem lookupField_setField_ne (fields : List (String × JVal)) (key k2 : String) (v : JVal)
    (hne : k2 ≠ key) : lookupField (setField fields key v) k2 = lookupField fields k2 := by
  induction fields with
  | nil => simp [setField, lookupField, Ne.symm hne]
  | cons p rest ih =>
    cases p with
    | mk k w =>
      by_cases hk : k = key
      · subst hk
        simp [setField, lookupField, Ne.symm hne]
      · simp only [setField, hk, if_false, lookupField]
        by_cases hk2 : k = k2
        · simp [hk2]
        · simp [hk2, ih]

theorem setPath_getPath (v : JVal) :
    ∀ (parts : List String) (fields : List (String × JVal)), parts ≠ [] →
      getPath (setPath fields parts v) parts = some v := by
  intro parts
  induction parts with
  | nil => intro fields h; exact absurd rfl h
  | cons key rest ih =>
    intro fields _
    rcases rest with _ | ⟨p2, ps⟩
    · rw [setPath, getPath, lookupField_setField_self]
    · rw [setPath, getPath, lookupField_setField_self]
      exact ih _ (by simp)

theorem setPath_prefix_obj (v : JVal) :
    ∀ (pre rest : List String) (fields : List (String × JVal)), pre ≠ [] → rest ≠ [] →
      ∃ sub, getPath (setPath fields (pre ++ rest) v) pre = some (JVal.obj sub) := by
  intro pre
  induction pre with
  | nil => intro rest fields h; exact absurd rfl h
  | cons key pre2 ih =>
    intro rest fields _ hrest
    rcases pre2 with _ | ⟨k2, ks⟩
    · rcases rest with _ | ⟨r, rs⟩
      · exact absurd rfl hrest
      · refine ⟨setPath (subObjFields fields key) (r :: rs) v, ?_⟩
        show getPath (setPath fields (key :: r :: rs) v) [key] = _
        rw [setPath, getPath, lookupField_setField_self]
    · obtain ⟨sub, hsub⟩ := ih rest (subObjFields fields key) (by simp) hrest
      refine ⟨sub, ?_⟩
      show getPath (setPath fields (key :: ((k2 :: ks) ++ rest)) v) (key :: k2 :: ks) = _
      rw [show (k2 :: ks) ++ rest = k2 :: (ks ++ rest) from rfl]
      rw [setPath, getPath, lookupField_setField_self]
      exact hsub

theorem splitChars_ne_nil (sep : Char) : ∀ cs : List Char, splitChars sep cs ≠ [] := by
  intro cs
  induction cs with
  | nil => simp [splitChars]
  | cons c rest ih =>
    rw [splitChars]
    by_cases h : c = sep
    · simp [h]
    · simp [h]

theorem splitOnDot_ne_nil (s : String) : splitOnDot s ≠ [] := by
  rw [splitOnDot]
  intro h
  exact splitChars_ne_nil _ s.data (List.map_eq_nil_iff.mp h)

/-- C10: `addOverride(p, v)` stores `v` at the nested key path obtained by
splitting `p` on `"."`: reading that path back yields `v` (any value
previously stored at the final key is replaced), and every proper prefix of
the path now holds an object — a missing intermediate, or an intermediate
that was not a non-array object, was replaced by a fresh empty object that
the recursion then filled. -/
theorem addOverride_contract (raw : List (String × JVal)) (path : String) (v : JVal) :
    getPath (addOverride raw path v) (splitOnDot path) = some v
    ∧ (∀ pre rest, splitOnDot path = pre ++ rest → pre ≠ [] → rest ≠ [] →
        ∃ sub, getPath (addOverride raw path v) pre = some (JVal.obj sub)) := by
  constructor
  · rw [addOverride]
    exact setPath_getPath v (splitOnDot path) raw (splitOnDot_ne_nil path)
  · rintro pre rest hsplit hpre hrest
    rw [addOverride, hsplit]
    exact setPath_prefix_obj v pre rest raw hpre hrest

theorem deepMerge_of_not_obj (o v : JVal) (hv : isObjB v = false) : deepMerge o v = v := by
  cases o <;> cases v <;> simp_all [deepMerge, isObjB]

theorem lookupField_eq_none_iff (fields : List (String × JVal)) (k : String) :
    lookupField fields k = none ↔ ∀ e ∈ fields, e.1 ≠ k := by
  induction fields with
  | nil => simp [lookupField]
  | cons p rest ih =>
    cases p with
    | mk k2 v2 =>
      by_cases hk : k2 = k
      · subst hk
        simp [lookupField]
      · simp [lookupField, hk, ih]

theorem mergeFields_isSome (k : String) :
    ∀ (fb fa : List (String × JVal)), (lookupField fa k).isSome →
      (lookupField (mergeFields fa fb) k).isSome := by
  intro fb
  induction fb with
  | nil => intro fa h; rw [mergeFields]; exact h
  | cons p rest ih =>
    cases p with
    | mk k2 v2 =>
      intro fa h
      rw [mergeFields]
      apply ih
      by_cases hk : k2 = k
      · subst hk
        cases hl : lookupField fa k2 <;>
          simp [hl, lookupField_setField_self]
      · cases hl : lookupField fa k2 <;>
          simp only [hl] <;>
          rw [lookupField_setField_ne _ _ _ _ (fun hkk => hk hkk.symm)] <;>
          exact h

theorem mergeFields_not_mentioned (k : String) :
    ∀ (fb fa : List (String × JVal)), lookupField fb k = none →
      lookupField (mergeFields fa fb) k = lookupField fa k := by
  intro fb
  induction fb with
  | nil => intro fa _; rw [mergeFields]
  | cons p rest ih =>
    cases p with
    | mk k2 v2 =>
      intro fa h
      have hk : k2 ≠ k := by
        intro hkk
        rw [lookupField, if_pos hkk] at h
        cases h
      have hrest : lookupField rest k = none := by
        rw [lookupField, if_neg hk] at h
        exact h
      rw [mergeFields, ih _ hrest]
      cases hl : lookupField fa k2 <;> simp only [hl] <;>
        exact lookupField_setField_ne _ _ _ _ (fun hkk => hk hkk.symm)

theorem mergeFields_scalar_override (k : String) (v : JVal) (hno : isObjB v = false) :
    ∀ (fb fa : List (String × JVal)), (fb.map Prod.fst).Nodup →
      lookupField fb k = some v →
      lookupField (mergeFields fa fb) k = some v := by
  intro fb
  induction fb with
  | nil => intro fa _ h; cases h
  | cons p rest ih =>
    cases p with
    | mk k2 v2 =>
      intro fa hnd hv
      rw [mergeFields]
      by_cases hk : k2 = k
      · subst hk
        have hv2 : v2 = v := by
          rw [lookupField, if_pos rfl, Option.some.injEq] at hv
          exact hv
        subst hv2
        have hrest : lookupField rest k2 = none := by
          rw [lookupField_eq_none_iff]
          intro e he hek
          rw [List.map_cons, List.nodup_cons] at hnd
          have hmem : e.1 ∈ rest.map Prod.fst := List.mem_map_of_mem Prod.fst he
          rw [hek] at hmem
          exact hnd.1 hmem
        rw [mergeFields_not_mentioned _ _ _ hrest]
        cases hl : lookupField fa k2
        · simp only [hl]
          exact lookupField_setField_self ..
        · simp only [hl]
          rw [deepMerge_of_not_obj _ _ hno]
          exact lookupField_setField_self ..
      · have hv' : lookupField rest k = some v := by
          rw [lookupField, if_neg hk] at hv
          exact hv
        have hnd' : (rest.map Prod.fst).Nodup := by
          rw [List.map_cons, List.nodup_cons] at hnd
          exact hnd.2
        exact ih _ hnd' hv'

theorem foldl_deepMerge_spec :
    ∀ (ms : List JVal) (f0 : List (String × JVal)), (∀ m ∈ ms, isObjB m = true) →
      ∃ f, ms.foldl deepMerge (JVal.obj f0) = JVal.obj f
        ∧ ∀ k : String,
          ((lookupField f0 k).isSome → (lookupField f k).isSome)
          ∧ ((∀ m ∈ ms, topHasKey m k = false) → lookupField f k = lookupField f0 k) := by
  intro ms
  induction ms with
  | nil =>
    intro f0 _
    exact ⟨f0, rfl, fun k => ⟨fun h => h, fun _ => rfl⟩⟩
  | cons m rest ih =>
    intro f0 hobj
    have hm : isObjB m = true := hobj m (List.mem_cons_self ..)
    cases m with
    | obj fm =>
      obtain ⟨f, hf, hprops⟩ :=
        ih (mergeFields f0 fm) (fun x hx => hobj x (List.mem_cons_of_mem _ hx))
      refine ⟨f, ?_, ?_⟩
      · rw [List.foldl_cons]
        rw [show deepMerge (JVal.obj f0) (JVal.obj fm) = JVal.obj (mergeFields f0 fm)
          from rfl]
        exact hf
      · intro k
        constructor
        · intro h0
          exact (hprops k).1 (mergeFields_isSome k fm f0 h0)
        · intro hno
          have hm0 : topHasKey (JVal.obj fm) k = false := hno _ (List.mem_cons_self ..)
          have hfm : lookupField fm k = none := by
            rw [topHasKey, topLookup] at hm0
            rw [← Option.not_isSome_iff_eq_none]
            rw [hm0]
            exact Bool.false_ne_true
          rw [(hprops k).2 (fun x hx => hno x (List.mem_cons_of_mem _ hx))]
          exact mergeFields_not_mentioned k fm f0 hfm
    | str s => cases hm
    | num n => cases hm
    | boolean b => cases hm
    | null => cases hm
    | arr xs => cases hm

theorem map_resolveTokens (l : List JVal) : l.map resolveTokens = l := by
  induction l with
  | nil => rfl
  | cons x xs ih => rw [List.map_cons, ih]; rfl

theorem stackMetadata_version (version stackName : String)
    (rawOverrides : List (String × JVal)) :
    lookupField (stackMetadata version stackName rawOverrides) "version"
      = some (JVal.str version) := by
  show lookupField (("version", JVal.str version) :: _) "version" = _
  rw [lookupField, if_pos rfl]

theorem stackMetadata_backend (version stackName : String)
    (rawOverrides : List (String × JVal)) :
    lookupField (stackMetadata version stackName rawOverrides) "backend"
      = some (JVal.str "local") := by
  show lookupField (("version", _) :: ("stackName", _) :: ("backend", JVal.str "local") :: _)
    "backend" = _
  rw [lookupField, if_neg (by decide), lookupField, if_neg (by decide),
    lookupField, if_pos rfl]

theorem stackMetadata_overrides (version stackName : String)
    (rawOverrides : List (String × JVal)) :
    (lookupField (stackMetadata version stackName rawOverrides) "overrides").isSome = true
      ↔ rawOverrides ≠ [] := by
  by_cases hro : rawOverrides = []
  · subst hro
    rw [show stackMetadata version stackName [] = [("version", JVal.str version),
      ("stackName", JVal.str stackName), ("backend", JVal.str "local")] from rfl]
    rw [lookupField, if_neg (by decide), lookupField, if_neg (by decide),
      lookupField, if_neg (by decide), lookupField]
    simp
  · rw [stackMetadata, if_pos (List.length_pos.mpr hro)]
    rw [show ([("version", JVal.str version), ("stackName", JVal.str stackName),
      ("backend", JVal.str "local")] ++ [("overrides",
        JVal.obj [("stack", JVal.arr (rawOverrides.map (fun kv => JVal.str kv.1)))])])
      = ("version", JVal.str version) :: ("stackName", JVal.str stackName)
        :: ("backend", JVal.str "local") :: [("overrides",
        JVal.obj [("stack", JVal.arr (rawOverrides.map (fun kv => JVal.str kv.1)))])]
      from rfl]
    rw [lookupField, if_neg (by decide), lookupField, if_neg (by decide),
      lookupField, if_neg (by decide), lookupField, if_pos rfl]
    simp [hro]

/-- C6: the synthesized document carries the reserved key `"//"` whose
metadata always holds `version` and `backend` entries, `backend` reading
`"local"` and `version` the framework version whenever no element metadata
overrides them; the metadata holds an `overrides` summary (listing the
overridden top-level stack keys) exactly when raw overrides exist; and the
raw overrides are deep-merged last, after every element fragment, so a
scalar override value wins over every automatically generated value at its
key. -/
theorem toTerraform_contract (version stackName : String)
    (rawOverrides : List (String × JVal)) (metadatas fragments : List JVal)
    (hm : ∀ m ∈ metadatas, isObjB m = true)
    (hf : ∀ f ∈ fragments, isObjB f = true ∧ topHasKey f "//" = false)
    (ho : lookupField rawOverrides "//" = none) :
    (∃ mdf,
      topLookup (toTerraform version stackName rawOverrides metadatas fragments) "//"
        = some (JVal.obj [("metadata", JVal.obj mdf)])
      ∧ (lookupField mdf "version").isSome = true
      ∧ (lookupField mdf "backend").isSome = true
      ∧ ((∀ m ∈ metadatas, topHasKey m "backend" = false) →
          lookupField mdf "backend" = some (JVal.str "local"))
      ∧ ((∀ m ∈ metadatas, topHasKey m "version" = false) →
          lookupField mdf "version" = some (JVal.str version))
      ∧ ((∀ m ∈ metadatas, topHasKey m "overrides" = false) →
          ((lookupField mdf "overrides").isSome = true ↔ rawOverrides ≠ [])))
    ∧ ((rawOverrides.map Prod.fst).Nodup →
        ∀ k v, lookupField rawOverrides k = some v → isObjB v = false →
          topLookup (toTerraform version stackName rawOverrides metadatas fragments) k
            = some v) := by
  obtain ⟨mdf, hmdf, hmdprops⟩ := foldl_deepMerge_spec metadatas
    (stackMetadata version stackName rawOverrides) hm
  obtain ⟨tff, htff, htfprops⟩ := foldl_deepMerge_spec fragments
    [("//", JVal.obj [("metadata", JVal.obj mdf)])] (fun x hx => (hf x hx).1)
  have htf : toTerraform version stackName rawOverrides metadatas fragments
      = JVal.obj (mergeFields tff rawOverrides) := by
    simp only [toTerraform, map_resolveTokens]
    rw [hmdf, htff]
    rfl
  have hslash : lookupField tff "//" = some (JVal.obj [("metadata", JVal.obj mdf)]) := by
    rw [(htfprops "//").2 (fun x hx => (hf x hx).2)]
    rw [lookupField, if_pos rfl]
  refine ⟨⟨mdf, ?_, ?_, ?_, ?_, ?_, ?_⟩, ?_⟩
  · rw [htf]
    show lookupField (mergeFields tff rawOverrides) "//" = _
    rw [mergeFields_not_mentioned _ _ _ ho, hslash]
  · exact (hmdprops "version").1 (by rw [stackMetadata_version]; rfl)
  · exact (hmdprops "backend").1 (by rw [stackMetadata_backend]; rfl)
  · intro hno
    rw [(hmdprops "backend").2 hno, stackMetadata_backend]
  · intro hno
    rw [(hmdprops "version").2 hno, stackMetadata_version]
  · intro hno
    rw [(hmdprops "overrides").2 hno]
    exact stackMetadata_overrides ..
  · intro hnd k v hkv hvno
    rw [htf]
    show lookupField (mergeFields tff rawOverrides) k = some v
    exact mergeFields_scalar_override k v hvno rawOverrides tff hnd hkv

theorem toTerraform_contract_witness :
    ∃ mdf,
      topLookup (toTerraform "0.0.0" "s" [("resource", JVal.str "x")]
          [JVal.obj [("stackTrace", JVal.null)]]
          [JVal.obj [("resource", JVal.obj [("t", JVal.null)])]]) "//"
        = some (JVal.obj [("metadata", JVal.obj mdf)])
      ∧ lookupField mdf "backend" = some (JVal.str "local")
      ∧ (lookupField mdf "overrides").isSome = true
      ∧ topLookup (toTerraform "0.0.0" "s" [("resource", JVal.str "x")]
          [JVal.obj [("stackTrace", JVal.null)]]
          [JVal.obj [("resource", JVal.obj [("t", JVal.null)])]]) "resource"
        = some (JVal.str "x") := by
  have h := toTerraform_contract "0.0.0" "s" [("resource", JVal.str "x")]
    [JVal.obj [("stackTrace", JVal.null)]]
    [JVal.obj [("resource", JVal.obj [("t", JVal.null)])]]
    (by decide) (by decide) (by rfl)
  obtain ⟨⟨mdf, h1, h2, h3, h4, h5, h6⟩, hprec⟩ := h
  refine ⟨mdf, h1, h4 (by decide), (h6 (by decide)).mpr (List.cons_ne_nil _ _), ?_⟩
  exact hprec (by decide) "resource" (JVal.str "x") (by rfl) (by rfl)
